import Mathlib

/-!
Verification development for `pupil_src/shared_modules/imu_timeline.py`.

The numeric Madgwick-style orientation filter (`Fusion`) is embedded over the
real numbers: every arithmetic stage of `Fusion.update` (accelerometer
normalisation and zero-norm guard, the gradient-descent corrective step, the
quaternion rate, the Euler integration, the mandatory renormalisation, and the
derived pitch/roll angles) is translated clause by clause from the source.
The list-processing components (the `fuser` generator, `Imu_Bisector`,
`IMURecording.load`, `Imu_Exporter.dict_export`) are embedded as computable
functions over lists, with rationals standing in for the float timestamps.
-/

namespace ImuTimeline

/-- `np.radians`: degrees to radians. -/
noncomputable def radians (x : ℝ) : ℝ := x * (Real.pi / 180)

/-- `np.degrees`: radians to degrees. -/
noncomputable def degrees (x : ℝ) : ℝ := x * (180 / Real.pi)

/-- `np.arctan2 y x`: the standard two-argument arctangent. -/
noncomputable def atan2 (y x : ℝ) : ℝ :=
  if 0 < x then Real.arctan (y / x)
  else if x < 0 ∧ 0 ≤ y then Real.arctan (y / x) + Real.pi
  else if x < 0 then Real.arctan (y / x) - Real.pi
  else if 0 < y then Real.pi / 2
  else if y < 0 then -(Real.pi / 2)
  else 0

/-- The quaternion `self.q`, components named as in the source's local
variables `q1, q2, q3, q4` (`q1` is the scalar part `self.q[0]`). -/
structure Quat where
  q1 : ℝ
  q2 : ℝ
  q3 : ℝ
  q4 : ℝ

/-- `q1*q1 + q2*q2 + q3*q3 + q4*q4`, the squared Euclidean norm that the
source feeds to `np.sqrt` when renormalising. -/
def normSq (v : Quat) : ℝ := v.q1 * v.q1 + v.q2 * v.q2 + v.q3 * v.q3 + v.q4 * v.q4

/-- Euclidean inner product of two quaternions viewed as 4-vectors. -/
def innerQ (u v : Quat) : ℝ := u.q1 * v.q1 + u.q2 * v.q2 + u.q3 * v.q3 + u.q4 * v.q4

/-- The source's normalisation idiom `norm = 1/np.sqrt(...)` followed by
multiplying each component by `norm` (used for both `s` and `q`). On a zero
vector, Lean's total division makes this return the zero vector, whereas the
floats compute `1/np.sqrt(0) = inf` and then `0 * inf = NaN`: that error path
is NOT representable here, so every use of `normalize4` must separately
account for a zero input — `Fusion.updateChecked` below makes both
division-by-zero sites of `update` explicit. -/
noncomputable def normalize4 (v : Quat) : Quat :=
  let n := 1 / Real.sqrt (normSq v)
  ⟨v.q1 * n, v.q2 * n, v.q3 * n, v.q4 * n⟩

/-- "Gradient decent algorithm corrective step": the four components
`s1, s2, s3, s4` of `Fusion.update`, with the auxiliary variables
`_2q1 = 2*q1`, `_4q1 = 4*q1`, `_8q2 = 8*q2`, `q1q1 = q1*q1`, ... inlined. -/
def sStep (q : Quat) (ax ay az : ℝ) : Quat :=
  ⟨4 * q.q1 * (q.q3 * q.q3) + 2 * q.q3 * ax + 4 * q.q1 * (q.q2 * q.q2) - 2 * q.q2 * ay,
   4 * q.q2 * (q.q4 * q.q4) - 2 * q.q4 * ax + 4 * (q.q1 * q.q1) * q.q2 - 2 * q.q1 * ay
     - 4 * q.q2 + 8 * q.q2 * (q.q2 * q.q2) + 8 * q.q2 * (q.q3 * q.q3) + 4 * q.q2 * az,
   4 * (q.q1 * q.q1) * q.q3 + 2 * q.q1 * ax + 4 * q.q3 * (q.q4 * q.q4) - 2 * q.q4 * ay
     - 4 * q.q3 + 8 * q.q3 * (q.q2 * q.q2) + 8 * q.q3 * (q.q3 * q.q3) + 4 * q.q3 * az,
   4 * (q.q2 * q.q2) * q.q4 - 2 * q.q2 * ax + 4 * (q.q3 * q.q3) * q.q4 - 2 * q.q3 * ay⟩

/-- "Compute rate of change of quaternion": `q_dot1 .. q_dot4`, where `s` is
the already-normalised corrective step. -/
def qDot (q : Quat) (gx gy gz beta : ℝ) (s : Quat) : Quat :=
  ⟨0.5 * (-q.q2 * gx - q.q3 * gy - q.q4 * gz) - beta * s.q1,
   0.5 * (q.q1 * gx + q.q3 * gz - q.q4 * gy) - beta * s.q2,
   0.5 * (q.q1 * gy - q.q2 * gz + q.q4 * gx) - beta * s.q3,
   0.5 * (q.q1 * gz + q.q2 * gy - q.q3 * gx) - beta * s.q4⟩

/-- The state of the `Fusion` class: `sample_dur`, `q`, `beta`, `pitch`,
`roll`. -/
structure Fusion where
  sample_dur : ℝ
  q : Quat
  beta : ℝ
  pitch : ℝ
  roll : ℝ

/-- `Fusion.__init__(gyro_error, sample_dur)`: quaternion starts at
`[1.0, 0.0, 0.0, 0.0]`, `beta = np.sqrt(3/4) * np.radians(gyro_error)`,
`pitch = roll = 0`. -/
noncomputable def Fusion.init (gyro_error sample_dur : ℝ) : Fusion :=
  { sample_dur := sample_dur
    q := ⟨1, 0, 0, 0⟩
    beta := Real.sqrt (3 / 4) * radians gyro_error
    pitch := 0
    roll := 0 }

/-- `Fusion.update(accel, gyro)`, translated stage by stage:
gyro converted to rad/s; accelerometer norm computed and the zero-norm guard
returns the state unchanged; otherwise accel is scaled by the reciprocal norm,
the corrective step is computed and normalised, the quaternion rate is formed,
integrated over `sample_dur`, renormalised, and pitch/roll are derived from
the new quaternion with the fixed `+7` / `+90` mounting offsets.

This total function is the NaN-free reading: the two unguarded
`norm = 1/np.sqrt(...)` sites read `1/0 = 0` instead of producing NaN.
`Fusion.updateChecked` below is the faithful model of those two sites and is
the authority for the unit-norm claim. -/
noncomputable def Fusion.update (f : Fusion) (accel gyro : ℝ × ℝ × ℝ) : Fusion :=
  let gx := radians gyro.1
  let gy := radians gyro.2.1
  let gz := radians gyro.2.2
  let anorm := Real.sqrt (accel.1 * accel.1 + accel.2.1 * accel.2.1 + accel.2.2 * accel.2.2)
  if anorm = 0 then f
  else
    let s := normalize4 (sStep f.q (accel.1 * (1 / anorm)) (accel.2.1 * (1 / anorm))
      (accel.2.2 * (1 / anorm)))
    let qd := qDot f.q gx gy gz f.beta s
    let qn := normalize4 ⟨f.q.q1 + qd.q1 * f.sample_dur, f.q.q2 + qd.q2 * f.sample_dur,
      f.q.q3 + qd.q3 * f.sample_dur, f.q.q4 + qd.q4 * f.sample_dur⟩
    { f with
      q := qn
      roll := degrees (-Real.arcsin (2 * (qn.q2 * qn.q4 - qn.q1 * qn.q3))) + 7
      pitch := degrees (atan2 (2 * (qn.q1 * qn.q2 + qn.q3 * qn.q4))
        (qn.q1 * qn.q1 - qn.q2 * qn.q2 - qn.q3 * qn.q3 + qn.q4 * qn.q4)) + 90 }

/-- One record of `IMURecording.DTYPE_RAW`: field order
`gyro_x, gyro_y, gyro_z, accel_x, accel_y, accel_z`. -/
structure RawDatum where
  gyro_x : ℝ
  gyro_y : ℝ
  gyro_z : ℝ
  accel_x : ℝ
  accel_y : ℝ
  accel_z : ℝ

/-- The body of `fuser`'s loop: `fusion.update((accel_x, accel_y, accel_z),
(gyro_x, gyro_y, gyro_z))`. -/
noncomputable def fusionStep (f : Fusion) (d : RawDatum) : Fusion :=
  f.update (d.accel_x, d.accel_y, d.accel_z) (d.gyro_x, d.gyro_y, d.gyro_z)

/-- Folding `fusionStep` over a sample list: the filter state after consuming
the list. -/
noncomputable def runFusion (f : Fusion) (ds : List RawDatum) : Fusion :=
  ds.foldl fusionStep f

/-- `Fusion.update` with the floating-point failure paths made explicit. The
source guards the accelerometer normalisation (`if norm == 0: return`) but
NOT the two later `norm = 1/np.sqrt(...)` normalisations: when the corrective
step `s1..s4` is exactly zero — the gradient-descent equilibrium, e.g. the
identity quaternion with accel `(0, 0, 1)` — numpy computes
`1/np.sqrt(0) = inf` and then `0 * inf = NaN`, and the quaternion, pitch and
roll all become NaN (likewise if the integrated quaternion were exactly
zero). A NaN state never recovers — every subsequent update keeps it NaN —
so the poisoned state is modelled as `none`. -/
noncomputable def Fusion.updateChecked (f : Fusion) (accel gyro : ℝ × ℝ × ℝ) :
    Option Fusion :=
  let gx := radians gyro.1
  let gy := radians gyro.2.1
  let gz := radians gyro.2.2
  let anorm := Real.sqrt (accel.1 * accel.1 + accel.2.1 * accel.2.1 + accel.2.2 * accel.2.2)
  if anorm = 0 then some f
  else
    let S := sStep f.q (accel.1 * (1 / anorm)) (accel.2.1 * (1 / anorm))
      (accel.2.2 * (1 / anorm))
    if normSq S = 0 then none
    else
      let s := normalize4 S
      let qd := qDot f.q gx gy gz f.beta s
      let pre : Quat := ⟨f.q.q1 + qd.q1 * f.sample_dur, f.q.q2 + qd.q2 * f.sample_dur,
        f.q.q3 + qd.q3 * f.sample_dur, f.q.q4 + qd.q4 * f.sample_dur⟩
      if normSq pre = 0 then none
      else
        let qn := normalize4 pre
        some { f with
          q := qn
          roll := degrees (-Real.arcsin (2 * (qn.q2 * qn.q4 - qn.q1 * qn.q3))) + 7
          pitch := degrees (atan2 (2 * (qn.q1 * qn.q2 + qn.q3 * qn.q4))
            (qn.q1 * qn.q1 - qn.q2 * qn.q2 - qn.q3 * qn.q3 + qn.q4 * qn.q4)) + 90 }

/-- `runFusion` over the checked update: `none` once the filter state is
NaN-poisoned (NaN propagates through every later update, so a poisoned run
stays poisoned). -/
noncomputable def runFusionChecked (f : Fusion) (ds : List RawDatum) : Option Fusion :=
  ds.foldl (fun of d =>
    of.bind fun f => f.updateChecked (d.accel_x, d.accel_y, d.accel_z)
      (d.gyro_x, d.gyro_y, d.gyro_z)) (some f)

/-- The three message shapes yielded by the `fuser` generator:
`("Fusing imu", ())`, `("Fused datum", ((pitch, roll), ind))`,
`("Fusion complete", ())`. -/
inductive Msg where
  | fusing : Msg
  | fused : (ℝ × ℝ) → ℕ → Msg
  | complete : Msg

/-- The per-sample tail of `fuser`: for each datum, update the filter, yield
`"Fusing imu"` then `"Fused datum" ((pitch, roll), ind)`; after the loop yield
`"Fusion complete"`. -/
noncomputable def fuserAux (f : Fusion) (ds : List RawDatum) (ind : ℕ) : List Msg :=
  match ds with
  | [] => [Msg.complete]
  | d :: rest =>
    let f' := fusionStep f d
    Msg.fusing :: Msg.fused (f'.pitch, f'.roll) ind :: fuserAux f' rest (ind + 1)

/-- `fuser(data_raw, gyro_error)`: yields `"Fusing imu"` once, constructs
`Fusion(gyro_error, 0.00494)`, then runs the per-sample loop. The full yielded
sequence of the generator is modelled as a list. -/
noncomputable def fuser (data_raw : List RawDatum) (gyro_error : ℝ) : List Msg :=
  Msg.fusing :: fuserAux (Fusion.init gyro_error 0.00494) data_raw 0

/-- Consuming a yielded sequence in chunks: `pollChunks sizes xs` splits `xs`
into consecutive chunks of the given sizes (a `fetch` that returns whatever is
ready delivers some such chunking). -/
def pollChunks : List ℕ → List α → List (List α)
  | [], _ => []
  | k :: ks, xs => xs.take k :: pollChunks ks (xs.drop k)

/-- The per-sample `((pitch, roll), index)` results carried by the
`"Fused datum"` messages of a yielded sequence. -/
def extractResults (msgs : List Msg) : List ((ℝ × ℝ) × ℕ) :=
  msgs.filterMap fun m =>
    match m with
    | Msg.fused pr i => some (pr, i)
    | _ => none

/-- `IMURecording.load`, with the filesystem abstracted: `raw_file` /
`ts_file` are the contents of the two resources, `none` when the file is
absent. If the raw file is absent and the timestamp file exists, both arrays
come back empty; otherwise both are loaded (`none` models the
`FileNotFoundError` that `np.load` / `np.fromfile` raise), and when
`num_ts_during_init = ts.size - len(raw)` is positive that many leading
timestamps are dropped. -/
def imuRecordingLoad (raw_file : Option (List RawDatum)) (ts_file : Option (List ℚ)) :
    Option (List ℚ × List RawDatum) :=
  if raw_file.isNone && ts_file.isSome then
    some ([], [])
  else do
    let ts ← ts_file
    let raw ← raw_file
    let num_ts_during_init : ℤ := (ts.length : ℤ) - (raw.length : ℤ)
    let ts' := if 0 < num_ts_during_init then ts.drop num_ts_during_init.toNat else ts
    return (ts', raw)

/-- The stored state of `Imu_Bisector`: `data`, `data_ts`, `sorted_idc`.
Timestamps are modelled as exact rationals. -/
structure ImuBisector (α : Type) where
  data : List α
  data_ts : List ℚ
  sorted_idc : List ℕ

/-- NumPy fancy indexing `xs[p]`: the elements of `xs` at the positions
listed in `p`, in that order. -/
def reorder (xs : List α) (p : List ℕ) : List α :=
  p.filterMap fun i => xs[i]?

/-- The documented contract of `np.argsort(data_ts)` (default
`kind='quicksort'`): the returned index array is a permutation of
`0 .. len-1` and indexing by it yields a non-decreasing array. The default
kind is documented as NOT stable, so nothing more is guaranteed about the
order of tied timestamps. -/
def argsortSpec (ts : List ℚ) (p : List ℕ) : Prop :=
  p.Perm (List.range ts.length) ∧ (reorder ts p).Sorted (· ≤ ·)

/-- Stable insertion of an index into an index list already sorted by
timestamp: `i` goes before the first `j` whose timestamp is larger, or equal
with `i ≤ j`. -/
def stableInsert (ts : List ℚ) (i : ℕ) : List ℕ → List ℕ
  | [] => [i]
  | j :: rest =>
    if ts.getD i 0 < ts.getD j 0 ∨ (ts.getD i 0 = ts.getD j 0 ∧ i ≤ j) then i :: j :: rest
    else j :: stableInsert ts i rest

/-- Modelled from the spec (comparison target for the stability clause): the
stable ascending-by-timestamp permutation, in which tied timestamps keep
their original relative order — indices sorted by timestamp with the index
itself breaking ties (a stable insertion sort of `0 .. len-1`). -/
def specStableArgsort (ts : List ℚ) : List ℕ :=
  (List.range ts.length).foldr (stableInsert ts) []

/-- `Imu_Bisector.__init__(data, data_ts)`: raises `ValueError` (modelled as
`Except.error`) when the lengths differ; stores empty arrays when the input
is empty; otherwise computes `sorted_idc = np.argsort(data_ts)` — passed in
here as the permutation `sorted_idc`, constrained by `argsortSpec` at use
sites — and reorders both arrays by it. -/
def Imu_Bisector_init (data : List α) (data_ts : List ℚ) (sorted_idc : List ℕ) :
    Except String (ImuBisector α) :=
  if data.length ≠ data_ts.length then
    Except.error "Each element in data requires a corresponding timestamp in data_ts"
  else if data.length = 0 then
    Except.ok ⟨[], [], []⟩
  else
    Except.ok ⟨reorder data sorted_idc, reorder data_ts sorted_idc, sorted_idc⟩

/-- One row of values handed to `Imu_Exporter.dict_export`: a field-name
lookup into the merged recarray row, `none` for a missing field (whose access
raises `KeyError`). -/
def RawRow : Type := String → Option ℚ

/-- The `try` block of `dict_export`: the eight field accesses, in source
order; the first missing field aborts the block (`KeyError`). -/
def tryFields (raw_value : RawRow) : Option (ℚ × ℚ × ℚ × ℚ × ℚ × ℚ × ℚ × ℚ) := do
  let gyro_x ← raw_value "gyro_x"
  let gyro_y ← raw_value "gyro_y"
  let gyro_z ← raw_value "gyro_z"
  let accel_x ← raw_value "accel_x"
  let accel_y ← raw_value "accel_y"
  let accel_z ← raw_value "accel_z"
  let pitch ← raw_value "pitch"
  let roll ← raw_value "roll"
  return (gyro_x, gyro_y, gyro_z, accel_x, accel_y, accel_z, pitch, roll)

/-- The dict returned by `Imu_Exporter.dict_export`, one `Option` per key so
that `None` (rendered as an empty CSV cell) is a typed state. Field order is
the CSV schema order. -/
structure ExportRow where
  imu_timestamp : Option ℚ
  world_index : Option ℤ
  gyro_x : Option ℚ
  gyro_y : Option ℚ
  gyro_z : Option ℚ
  accel_x : Option ℚ
  accel_y : Option ℚ
  accel_z : Option ℚ
  pitch : Option ℚ
  roll : Option ℚ
deriving DecidableEq

/-- `Imu_Exporter.dict_export(raw_value, world_ts, world_index)`: on success
all ten keys are populated (`imu_timestamp = str(world_ts)` is modelled as
the timestamp value itself); on `KeyError` the nine local variables are reset
to `None`, while the `world_index` key is built from the untouched function
argument in both cases. -/
def dict_export (raw_value : RawRow) (world_ts : ℚ) (world_index : ℤ) : ExportRow :=
  match tryFields raw_value with
  | some (gyro_x, gyro_y, gyro_z, accel_x, accel_y, accel_z, pitch, roll) =>
      ⟨some world_ts, some world_index, some gyro_x, some gyro_y, some gyro_z,
        some accel_x, some accel_y, some accel_z, some pitch, some roll⟩
  | none =>
      ⟨none, some world_index, none, none, none, none, none, none, none, none⟩

/-- The row loop of `csv_export_write`: one `dict_export` row per
`(raw_value, world_ts, world_index)` triple of the export window. -/
def csvExportRows (rows : List (RawRow × ℚ × ℤ)) : List ExportRow :=
  rows.map fun r => dict_export r.1 r.2.1 r.2.2

/-- `np.abs` on exact rationals, written out so that it evaluates by kernel
reduction (the `|.|` notation's instance path does not). -/
def absQ (x : ℚ) : ℚ := if x < 0 then -x else x

/-- Modelled from the spec: `pm.find_closest` lives in `player_methods.py`,
which is not among the sources under verification. Spec, section 4.5: for one
query value, the index into the reference sequence whose value has minimum
absolute difference from the query, the lower index on exact ties. -/
def findClosestOne (q : ℚ) : List ℚ → ℕ
  | [] => 0
  | x :: xs =>
    let r := findClosestOne q xs
    match xs with
    | [] => 0
    | y :: tl => if absQ ((y :: tl).getD r 0 - q) < absQ (x - q) then r + 1 else 0

/-- Modelled from the spec: `pm.find_closest(timestamps, queries)` maps every
query to its nearest reference index. -/
def find_closest (ref : List ℚ) (queries : List ℚ) : List ℕ :=
  queries.map fun q => findClosestOne q ref

lemma normSq_nonneg (v : Quat) : 0 ≤ normSq v := by
  simp only [normSq]
  nlinarith [mul_self_nonneg v.q1, mul_self_nonneg v.q2, mul_self_nonneg v.q3,
    mul_self_nonneg v.q4]

lemma normSq_eq_zero_iff (v : Quat) :
    normSq v = 0 ↔ v.q1 = 0 ∧ v.q2 = 0 ∧ v.q3 = 0 ∧ v.q4 = 0 := by
  constructor
  · intro h
    simp only [normSq] at h
    refine ⟨mul_self_eq_zero.mp ?_, mul_self_eq_zero.mp ?_, mul_self_eq_zero.mp ?_,
      mul_self_eq_zero.mp ?_⟩ <;>
      nlinarith [mul_self_nonneg v.q1, mul_self_nonneg v.q2, mul_self_nonneg v.q3,
        mul_self_nonneg v.q4]
  · rintro ⟨h1, h2, h3, h4⟩
    simp [normSq, h1, h2, h3, h4]

lemma normalize4_normSq (v : Quat) (h : normSq v ≠ 0) : normSq (normalize4 v) = 1 := by
  have h0 : 0 < normSq v := lt_of_le_of_ne (normSq_nonneg v) (Ne.symm h)
  have hs : 0 < Real.sqrt (normSq v) := Real.sqrt_pos.mpr h0
  have hss : Real.sqrt (normSq v) * Real.sqrt (normSq v) = normSq v :=
    Real.mul_self_sqrt h0.le
  simp only [normalize4, normSq] at hss hs ⊢
  field_simp
  linarith [hss]

lemma normalize4_eq_zero (v : Quat) (h : normSq v = 0) : normalize4 v = ⟨0, 0, 0, 0⟩ := by
  obtain ⟨h1, h2, h3, h4⟩ := (normSq_eq_zero_iff v).mp h
  simp [normalize4, h1, h2, h3, h4]

lemma innerQ_sq_le (u v : Quat) : innerQ u v ^ 2 ≤ normSq u * normSq v := by
  simp only [innerQ, normSq]
  nlinarith [sq_nonneg (u.q1 * v.q2 - u.q2 * v.q1), sq_nonneg (u.q1 * v.q3 - u.q3 * v.q1),
    sq_nonneg (u.q1 * v.q4 - u.q4 * v.q1), sq_nonneg (u.q2 * v.q3 - u.q3 * v.q2),
    sq_nonneg (u.q2 * v.q4 - u.q4 * v.q2), sq_nonneg (u.q3 * v.q4 - u.q4 * v.q3)]

lemma abs_innerQ_normalize_le_one (q v : Quat) (hq : normSq q = 1) :
    |innerQ q (normalize4 v)| ≤ 1 := by
  by_cases h : normSq v = 0
  · rw [normalize4_eq_zero v h]
    simp [innerQ]
  · have h1 : normSq (normalize4 v) = 1 := normalize4_normSq v h
    have h2 := innerQ_sq_le q (normalize4 v)
    rw [hq, h1, one_mul] at h2
    nlinarith [sq_abs (innerQ q (normalize4 v)), abs_nonneg (innerQ q (normalize4 v))]

lemma normSq_ne_zero_of_innerQ (u v : Quat) (h : innerQ u v ≠ 0) : normSq v ≠ 0 := by
  intro h0
  obtain ⟨h1, h2, h3, h4⟩ := (normSq_eq_zero_iff v).mp h0
  exact h (by simp [innerQ, h1, h2, h3, h4])

/-- The integrated (pre-normalisation) quaternion keeps a positive inner
product with the previous unit quaternion whenever the gain-times-step
product `beta * dt` is below `1`: the gyro part of the quaternion rate is
orthogonal to `q`, so only the bounded corrective step can shrink the
component along `q`. -/
lemma inner_pre_pos (q1 q2 q3 q4 s1 s2 s3 s4 gx gy gz beta dt : ℝ)
    (hq : q1 * q1 + q2 * q2 + q3 * q3 + q4 * q4 = 1)
    (hs : |q1 * s1 + q2 * s2 + q3 * s3 + q4 * s4| ≤ 1)
    (hb : 0 ≤ beta) (hd : 0 ≤ dt) (hbd : beta * dt < 1) :
    0 < q1 * (q1 + (0.5 * (-q2 * gx - q3 * gy - q4 * gz) - beta * s1) * dt)
      + q2 * (q2 + (0.5 * (q1 * gx + q3 * gz - q4 * gy) - beta * s2) * dt)
      + q3 * (q3 + (0.5 * (q1 * gy - q2 * gz + q4 * gx) - beta * s3) * dt)
      + q4 * (q4 + (0.5 * (q1 * gz + q2 * gy - q3 * gx) - beta * s4) * dt) := by
  have key : q1 * (q1 + (0.5 * (-q2 * gx - q3 * gy - q4 * gz) - beta * s1) * dt)
      + q2 * (q2 + (0.5 * (q1 * gx + q3 * gz - q4 * gy) - beta * s2) * dt)
      + q3 * (q3 + (0.5 * (q1 * gy - q2 * gz + q4 * gx) - beta * s3) * dt)
      + q4 * (q4 + (0.5 * (q1 * gz + q2 * gy - q3 * gx) - beta * s4) * dt)
      = (q1 * q1 + q2 * q2 + q3 * q3 + q4 * q4)
        - beta * dt * (q1 * s1 + q2 * s2 + q3 * s3 + q4 * s4) := by ring
  rw [key, hq]
  obtain ⟨hlo, hhi⟩ := abs_le.mp hs
  nlinarith [mul_nonneg hb hd]

/-- A successful `updateChecked` keeps the quaternion exactly unit-norm: on
the `some` paths every division is by a provably nonzero norm, so the checked
model collapses nothing — the spec's invariant holds precisely when the NaN
path is not taken. -/
lemma updateChecked_some_unit (f f' : Fusion) (hq : normSq f.q = 1)
    (accel gyro : ℝ × ℝ × ℝ) (h : f.updateChecked accel gyro = some f') :
    normSq f'.q = 1 := by
  simp only [Fusion.updateChecked] at h
  split_ifs at h with h1 h2 h3
  · injection h with h4
    rw [← h4]
    exact hq
  · injection h with h4
    rw [← h4]
    exact normalize4_normSq _ h3

/-- Under a unit quaternion and the deployed gain regime
(`beta * sample_dur < 1`), the only way `updateChecked` can take the NaN path
is the corrective-step equilibrium `s = 0`: the quaternion-renormalisation
divisor is provably nonzero, because the gyro rate is orthogonal to `q` and
the normalised corrective step is at most a unit vector. -/
lemma updateChecked_none_only_at_equilibrium (f : Fusion) (hq : normSq f.q = 1)
    (hb : 0 ≤ f.beta) (hd : 0 ≤ f.sample_dur) (hbd : f.beta * f.sample_dur < 1)
    (accel gyro : ℝ × ℝ × ℝ)
    (h : f.updateChecked accel gyro = none) :
    normSq (sStep f.q
      (accel.1 * (1 / Real.sqrt (accel.1 * accel.1 + accel.2.1 * accel.2.1
        + accel.2.2 * accel.2.2)))
      (accel.2.1 * (1 / Real.sqrt (accel.1 * accel.1 + accel.2.1 * accel.2.1
        + accel.2.2 * accel.2.2)))
      (accel.2.2 * (1 / Real.sqrt (accel.1 * accel.1 + accel.2.1 * accel.2.1
        + accel.2.2 * accel.2.2)))) = 0 := by
  simp only [Fusion.updateChecked] at h
  split_ifs at h with h1 h2 h3
  · exact h2
  · exfalso
    apply absurd h3
    apply normSq_ne_zero_of_innerQ f.q
    apply ne_of_gt
    have hs1 : |innerQ f.q (normalize4 (sStep f.q
        (accel.1 * (1 / Real.sqrt (accel.1 * accel.1 + accel.2.1 * accel.2.1
          + accel.2.2 * accel.2.2)))
        (accel.2.1 * (1 / Real.sqrt (accel.1 * accel.1 + accel.2.1 * accel.2.1
          + accel.2.2 * accel.2.2)))
        (accel.2.2 * (1 / Real.sqrt (accel.1 * accel.1 + accel.2.1 * accel.2.1
          + accel.2.2 * accel.2.2)))))| ≤ 1 :=
      abs_innerQ_normalize_le_one f.q _ hq
    have hq' : f.q.q1 * f.q.q1 + f.q.q2 * f.q.q2 + f.q.q3 * f.q.q3 + f.q.q4 * f.q.q4 = 1 := hq
    simp only [innerQ] at hs1
    simp only [innerQ, qDot]
    exact inner_pre_pos f.q.q1 f.q.q2 f.q.q3 f.q.q4 _ _ _ _ _ _ _ f.beta f.sample_dur
      hq' hs1 hb hd hbd

/-- The failing update evaluated in the checked model: a fresh
`Fusion(50, 0.00494)` (identity quaternion) updated with accel `(0, 0, 1)`
and gyro `(0, 0, 0)` has corrective step exactly zero, so the unguarded
`norm = 1/np.sqrt(0)` fires and the state is NaN-poisoned. -/
lemma updateChecked_nan_at_equilibrium :
    (Fusion.init 50 0.00494).updateChecked (0, 0, 1) (0, 0, 0) = none := by
  have hs1 : Real.sqrt ((0 : ℝ) * 0 + 0 * 0 + 1 * 1) = 1 := by
    rw [show (0 : ℝ) * 0 + 0 * 0 + 1 * 1 = 1 by norm_num, Real.sqrt_one]
  have hS : normSq (sStep (Fusion.init 50 0.00494).q
      (0 * (1 / Real.sqrt ((0 : ℝ) * 0 + 0 * 0 + 1 * 1)))
      (0 * (1 / Real.sqrt ((0 : ℝ) * 0 + 0 * 0 + 1 * 1)))
      (1 * (1 / Real.sqrt ((0 : ℝ) * 0 + 0 * 0 + 1 * 1)))) = 0 := by
    rw [hs1]
    norm_num [Fusion.init, sStep, normSq]
  simp only [Fusion.updateChecked]
  rw [if_neg (show ¬Real.sqrt ((0 : ℝ) * 0 + 0 * 0 + 1 * 1) = 0 by rw [hs1]; norm_num),
    if_pos hS]

/-- C1 (code bug): the claim — unit-norm quaternion after every update, for
sequences whose accelerometer samples all have nonzero magnitude — is the
spec's stated invariant, but the code's corrective-step normalisation is
unguarded. At the concrete failing input, a fresh `Fusion(50, 0.00494)`
(identity quaternion) updated with accel `(0, 0, 1)` (nonzero magnitude) and
gyro `(0, 0, 0)`, the corrective step is exactly `(0, 0, 0, 0)`; the code
computes `norm = 1/np.sqrt(0) = inf`, then `s *= norm` gives `0 * inf = NaN`,
and the stored quaternion becomes all-NaN — its norm is NaN, not within
`1e-6` of `1`. The checked model returns the poisoned state `none` instead of
any unit-norm quaternion, refuting the claim on the code as written. -/
theorem fusion_nan_quaternion_failing_input :
    ((0 : ℝ) * 0 + 0 * 0 + 1 * 1 ≠ 0)
    ∧ sStep ⟨1, 0, 0, 0⟩ 0 0 1 = ⟨0, 0, 0, 0⟩
    ∧ (Fusion.init 50 0.00494).updateChecked (0, 0, 1) (0, 0, 0) = none
    ∧ runFusionChecked (Fusion.init 50 0.00494) [(⟨0, 0, 0, 0, 0, 1⟩ : RawDatum)]
        = none := by
  refine ⟨by norm_num, ?_, updateChecked_nan_at_equilibrium, ?_⟩
  · show Quat.mk _ _ _ _ = Quat.mk 0 0 0 0
    norm_num [sStep]
  · show ((some (Fusion.init 50 0.00494)).bind fun f =>
        f.updateChecked (0, 0, 1) (0, 0, 0)) = none
    rw [Option.some_bind, updateChecked_nan_at_equilibrium]

/-- C3: `Fusion.update` with an accelerometer sample of exactly zero
magnitude performs no state change at all — the whole `Fusion` state,
including quaternion, pitch and roll, is returned unchanged, and nothing is
raised (the guard simply returns). -/
theorem update_zero_accel_noop (f : Fusion) (accel gyro : ℝ × ℝ × ℝ)
    (ha : accel.1 * accel.1 + accel.2.1 * accel.2.1 + accel.2.2 * accel.2.2 = 0) :
    f.update accel gyro = f := by
  simp only [Fusion.update]
  rw [ha, Real.sqrt_zero, if_pos rfl]

/-- Witness for C3 at `accel = (0, 0, 0)`. -/
theorem update_zero_accel_noop_witness :
    ((0 : ℝ) * 0 + 0 * 0 + 0 * 0 = 0)
    ∧ (Fusion.init 50 0.00494).update (0, 0, 0) (1, 2, 3) = Fusion.init 50 0.00494 :=
  ⟨by norm_num, update_zero_accel_noop _ (0, 0, 0) (1, 2, 3) (by norm_num)⟩

/-- C6: the filter gain is `beta = sqrt(3/4) * radians(gyro_error)` at
construction, and after every non-degenerate update the stored outputs are
`roll = degrees(-asin(2*(q2*q4 - q1*q3))) + 7` and
`pitch = degrees(atan2(2*(q1*q2 + q3*q4), q1^2 - q2^2 - q3^2 + q4^2)) + 90`
evaluated at the updated quaternion. -/
theorem fusion_beta_pitch_roll_formulas (gyro_error sample_dur : ℝ) (f : Fusion)
    (accel gyro : ℝ × ℝ × ℝ)
    (ha : accel.1 * accel.1 + accel.2.1 * accel.2.1 + accel.2.2 * accel.2.2 ≠ 0) :
    (Fusion.init gyro_error sample_dur).beta = Real.sqrt (3 / 4) * radians gyro_error
    ∧ (f.update accel gyro).roll
        = degrees (-Real.arcsin (2 * ((f.update accel gyro).q.q2 * (f.update accel gyro).q.q4
            - (f.update accel gyro).q.q1 * (f.update accel gyro).q.q3))) + 7
    ∧ (f.update accel gyro).pitch
        = degrees (atan2
            (2 * ((f.update accel gyro).q.q1 * (f.update accel gyro).q.q2
              + (f.update accel gyro).q.q3 * (f.update accel gyro).q.q4))
            ((f.update accel gyro).q.q1 * (f.update accel gyro).q.q1
              - (f.update accel gyro).q.q2 * (f.update accel gyro).q.q2
              - (f.update accel gyro).q.q3 * (f.update accel gyro).q.q3
              + (f.update accel gyro).q.q4 * (f.update accel gyro).q.q4)) + 90 := by
  have hnorm : Real.sqrt (accel.1 * accel.1 + accel.2.1 * accel.2.1
      + accel.2.2 * accel.2.2) ≠ 0 := by
    have h0 : 0 ≤ accel.1 * accel.1 + accel.2.1 * accel.2.1 + accel.2.2 * accel.2.2 := by
      nlinarith [mul_self_nonneg accel.1, mul_self_nonneg accel.2.1, mul_self_nonneg accel.2.2]
    intro hc
    exact ha (le_antisymm (Real.sqrt_eq_zero'.mp hc) h0)
  refine ⟨rfl, ?_, ?_⟩ <;>
    simp only [Fusion.update, if_neg hnorm]

/-- Witness for C6 at a non-degenerate sample. -/
theorem fusion_beta_pitch_roll_formulas_witness :
    ((0 : ℝ) * 0 + 0 * 0 + 1 * 1 ≠ 0)
    ∧ ((Fusion.init 50 0.00494).beta = Real.sqrt (3 / 4) * radians 50
      ∧ ((Fusion.init 50 0.00494).update (0, 0, 1) (0, 0, 0)).roll
          = degrees (-Real.arcsin (2 * (((Fusion.init 50 0.00494).update (0, 0, 1) (0, 0, 0)).q.q2
              * ((Fusion.init 50 0.00494).update (0, 0, 1) (0, 0, 0)).q.q4
              - ((Fusion.init 50 0.00494).update (0, 0, 1) (0, 0, 0)).q.q1
              * ((Fusion.init 50 0.00494).update (0, 0, 1) (0, 0, 0)).q.q3))) + 7
      ∧ ((Fusion.init 50 0.00494).update (0, 0, 1) (0, 0, 0)).pitch
          = degrees (atan2
              (2 * (((Fusion.init 50 0.00494).update (0, 0, 1) (0, 0, 0)).q.q1
                * ((Fusion.init 50 0.00494).update (0, 0, 1) (0, 0, 0)).q.q2
                + ((Fusion.init 50 0.00494).update (0, 0, 1) (0, 0, 0)).q.q3
                * ((Fusion.init 50 0.00494).update (0, 0, 1) (0, 0, 0)).q.q4))
              (((Fusion.init 50 0.00494).update (0, 0, 1) (0, 0, 0)).q.q1
                * ((Fusion.init 50 0.00494).update (0, 0, 1) (0, 0, 0)).q.q1
                - ((Fusion.init 50 0.00494).update (0, 0, 1) (0, 0, 0)).q.q2
                * ((Fusion.init 50 0.00494).update (0, 0, 1) (0, 0, 0)).q.q2
                - ((Fusion.init 50 0.00494).update (0, 0, 1) (0, 0, 0)).q.q3
                * ((Fusion.init 50 0.00494).update (0, 0, 1) (0, 0, 0)).q.q3
                + ((Fusion.init 50 0.00494).update (0, 0, 1) (0, 0, 0)).q.q4
                * ((Fusion.init 50 0.00494).update (0, 0, 1) (0, 0, 0)).q.q4)) + 90) :=
  ⟨by norm_num,
   fusion_beta_pitch_roll_formulas 50 0.00494 (Fusion.init 50 0.00494) (0, 0, 1) (0, 0, 0)
     (by norm_num)⟩

/-- C4: the Bisector constructor fails with a validation error if and only if
`data` and `data_ts` have different lengths — on failure `Except.error`
carries no `ImuBisector` value at all, so nothing is stored — and
constructing with both arguments empty succeeds with an empty bisector. -/
theorem bisector_length_validation {α : Type} (data : List α) (data_ts : List ℚ)
    (p : List ℕ) :
    ((∃ e, Imu_Bisector_init data data_ts p = Except.error e)
      ↔ data.length ≠ data_ts.length)
    ∧ Imu_Bisector_init ([] : List α) ([] : List ℚ) p = Except.ok ⟨[], [], []⟩ := by
  constructor
  · constructor
    · rintro ⟨e, he⟩
      by_contra h
      simp only [Imu_Bisector_init, h, if_false] at he
      split_ifs at he <;> simp_all
    · intro h
      exact ⟨"Each element in data requires a corresponding timestamp in data_ts",
        by simp [Imu_Bisector_init, h]⟩
  · simp [Imu_Bisector_init]

/-- C8: `IMURecording.load` returns two empty, correctly typed sequences when
the raw-sample file is absent but the timestamp file exists; otherwise it
loads both and, whenever there are more timestamps than raw samples, drops
exactly the oldest `len(ts) - len(raw)` timestamps, keeping the tail so the
counts match. -/
theorem imu_recording_load_reconcile (ts0 : List ℚ) (raw : List RawDatum) (ts : List ℚ)
    (h : raw.length < ts.length) :
    imuRecordingLoad none (some ts0) = some ([], [])
    ∧ imuRecordingLoad (some raw) (some ts)
        = some (ts.drop (ts.length - raw.length), raw)
    ∧ (ts.drop (ts.length - raw.length)).length = raw.length := by
  refine ⟨rfl, ?_, ?_⟩
  · have hpos : (0 : ℤ) < (ts.length : ℤ) - (raw.length : ℤ) := by omega
    have htn : ((ts.length : ℤ) - (raw.length : ℤ)).toNat = ts.length - raw.length := by
      omega
    simp [imuRecordingLoad, hpos, htn]
    intro hc
    exact absurd hc (by omega)
  · simp only [List.length_drop]
    omega

/-- Witness for C8: a two-timestamp file against a single raw sample — the
older timestamp is dropped. -/
theorem imu_recording_load_reconcile_witness :
    ([(⟨1, 2, 3, 4, 5, 6⟩ : RawDatum)]).length < ([(1 : ℚ), 2]).length
    ∧ (imuRecordingLoad none (some [(5 : ℚ)]) = some ([], [])
      ∧ imuRecordingLoad (some [(⟨1, 2, 3, 4, 5, 6⟩ : RawDatum)]) (some [(1 : ℚ), 2])
          = some (([(1 : ℚ), 2]).drop
              (([(1 : ℚ), 2]).length - ([(⟨1, 2, 3, 4, 5, 6⟩ : RawDatum)]).length),
            [(⟨1, 2, 3, 4, 5, 6⟩ : RawDatum)])
      ∧ (([(1 : ℚ), 2]).drop
          (([(1 : ℚ), 2]).length - ([(⟨1, 2, 3, 4, 5, 6⟩ : RawDatum)]).length)).length
          = ([(⟨1, 2, 3, 4, 5, 6⟩ : RawDatum)]).length) :=
  ⟨by norm_num,
   imu_recording_load_reconcile [(5 : ℚ)] [(⟨1, 2, 3, 4, 5, 6⟩ : RawDatum)]
     [(1 : ℚ), 2] (by norm_num)⟩

lemma tryFields_eq_none (raw_value : RawRow)
    (h : raw_value "gyro_x" = none ∨ raw_value "gyro_y" = none ∨ raw_value "gyro_z" = none
      ∨ raw_value "accel_x" = none ∨ raw_value "accel_y" = none ∨ raw_value "accel_z" = none
      ∨ raw_value "pitch" = none ∨ raw_value "roll" = none) :
    tryFields raw_value = none := by
  simp only [tryFields]
  cases h1 : raw_value "gyro_x" with
  | none => rfl
  | some v1 =>
  cases h2 : raw_value "gyro_y" with
  | none => simp [Option.bind]
  | some v2 =>
  cases h3 : raw_value "gyro_z" with
  | none => simp [Option.bind]
  | some v3 =>
  cases h4 : raw_value "accel_x" with
  | none => simp [Option.bind]
  | some v4 =>
  cases h5 : raw_value "accel_y" with
  | none => simp [Option.bind]
  | some v5 =>
  cases h6 : raw_value "accel_z" with
  | none => simp [Option.bind]
  | some v6 =>
  cases h7 : raw_value "pitch" with
  | none => simp [Option.bind]
  | some v7 =>
  cases h8 : raw_value "roll" with
  | none => simp [Option.bind]
  | some v8 =>
  exfalso
  rcases h with h | h | h | h | h | h | h | h <;> simp_all

/-- C7 counterexample: on a row missing its expected fields, the exported
dict does NOT substitute an empty value for `world_index` — that key keeps
the caller-supplied frame index (the `except KeyError` branch only resets the
nine other variables), so the claim's "every one of the 10 fields (including
world_index)" is false. -/
theorem dict_export_world_index_counterexample :
    (fun _ : String => (none : Option ℚ)) "gyro_x" = none
    ∧ (dict_export (fun _ => none) 0 5).world_index = some 5
    ∧ (dict_export (fun _ => none) 0 5).world_index ≠ none := by
  refine ⟨rfl, rfl, by simp [dict_export, tryFields]⟩

/-- C7 (amended): for every export row whose raw value is missing an expected
field, `dict_export` substitutes an empty value for the nine data fields of
that row — `imu_timestamp`, the six gyro/accel axes, `pitch`, `roll` — while
`world_index` keeps the caller-supplied index, and the export continues with
the remaining rows (the row loop is total: one output row per input row). -/
theorem dict_export_schema_gap (raw_value : RawRow) (world_ts : ℚ) (world_index : ℤ)
    (h : raw_value "gyro_x" = none ∨ raw_value "gyro_y" = none ∨ raw_value "gyro_z" = none
      ∨ raw_value "accel_x" = none ∨ raw_value "accel_y" = none ∨ raw_value "accel_z" = none
      ∨ raw_value "pitch" = none ∨ raw_value "roll" = none) :
    dict_export raw_value world_ts world_index
      = ⟨none, some world_index, none, none, none, none, none, none, none, none⟩
    ∧ ∀ rows : List (RawRow × ℚ × ℤ), (csvExportRows rows).length = rows.length := by
  refine ⟨?_, ?_⟩
  · rw [dict_export, tryFields_eq_none raw_value h]
  · intro rows
    simp [csvExportRows]

/-- Witness for C7's amended theorem, on a row with no fields at all. -/
theorem dict_export_schema_gap_witness :
    ((fun _ : String => (none : Option ℚ)) "gyro_x" = none
      ∨ (fun _ : String => (none : Option ℚ)) "gyro_y" = none
      ∨ (fun _ : String => (none : Option ℚ)) "gyro_z" = none
      ∨ (fun _ : String => (none : Option ℚ)) "accel_x" = none
      ∨ (fun _ : String => (none : Option ℚ)) "accel_y" = none
      ∨ (fun _ : String => (none : Option ℚ)) "accel_z" = none
      ∨ (fun _ : String => (none : Option ℚ)) "pitch" = none
      ∨ (fun _ : String => (none : Option ℚ)) "roll" = none)
    ∧ (dict_export (fun _ => none) 1 7
        = ⟨none, some 7, none, none, none, none, none, none, none, none⟩
      ∧ ∀ rows : List (RawRow × ℚ × ℤ), (csvExportRows rows).length = rows.length) :=
  ⟨Or.inl rfl, dict_export_schema_gap (fun _ => none) 1 7 (Or.inl rfl)⟩

lemma reorder_range (xs : List α) : reorder xs (List.range xs.length) = xs := by
  induction xs with
  | nil => rfl
  | cons x xs ih =>
    rw [reorder, List.length_cons, List.range_succ_eq_map,
      List.filterMap_cons_some (show (x :: xs)[(0 : ℕ)]? = some x by simp),
      List.filterMap_map]
    have hcomp : ((fun i => (x :: xs)[i]?) ∘ Nat.succ) = fun i => xs[i]? := by
      funext i
      simp
    rw [hcomp]
    exact congrArg (x :: ·) ih

lemma reorder_perm (xs : List α) (p : List ℕ) (hp : p.Perm (List.range xs.length)) :
    (reorder xs p).Perm xs := by
  have h2 : (reorder xs p).Perm (reorder xs (List.range xs.length)) :=
    hp.filterMap _
  rwa [reorder_range] at h2

/-- C2 counterexample: the code computes `np.argsort(data_ts)` with the
default (non-stable) sort kind, so its contract only guarantees an ascending
permutation. The permutation `[1, 0]` is a valid argsort output for the tied
timestamps `[0, 0]`, yet reordering the payload `[10, 20]` by it yields
`[20, 10]`, not the stable order `[10, 20]` the claim requires. -/
theorem bisector_stability_counterexample :
    argsortSpec [(0 : ℚ), 0] [1, 0]
    ∧ Imu_Bisector_init [(10 : ℕ), 20] [(0 : ℚ), 0] [1, 0]
        = Except.ok ⟨[20, 10], [0, 0], [1, 0]⟩
    ∧ specStableArgsort [(0 : ℚ), 0] = [0, 1]
    ∧ reorder [(10 : ℕ), 20] (specStableArgsort [(0 : ℚ), 0]) = [10, 20]
    ∧ ([20, 10] : List ℕ) ≠ [10, 20] := by
  refine ⟨⟨by decide, by decide⟩, by rfl, by decide, by decide, by decide⟩

/-- C2 (amended): for equal-length nonempty inputs the Bisector stores both
arrays reordered by the argsort permutation — so the stored timestamps are an
ascending permutation (a sort) of the input timestamps and the payload is
reordered by exactly the same permutation — but, the argsort being the
default non-stable kind, entries with equal timestamps are in whatever order
that permutation puts them, not necessarily their original relative order. -/
theorem bisector_argsort_reorder {α : Type} (data : List α) (data_ts : List ℚ)
    (p : List ℕ) (hlen : data.length = data_ts.length) (hp : argsortSpec data_ts p) :
    Imu_Bisector_init data data_ts p
      = Except.ok ⟨reorder data p, reorder data_ts p, p⟩
    ∧ (reorder data_ts p).Sorted (· ≤ ·)
    ∧ (reorder data_ts p).Perm data_ts
    ∧ (reorder data p).Perm data := by
  obtain ⟨hperm, hsorted⟩ := hp
  have hpd : p.Perm (List.range data.length) := by rwa [hlen]
  refine ⟨?_, hsorted, reorder_perm _ _ hperm, reorder_perm _ _ hpd⟩
  by_cases h0 : data.length = 0
  · have hd : data = [] := List.length_eq_zero.mp h0
    have hts : data_ts = [] := List.length_eq_zero.mp (by omega)
    have hpnil : p = [] := by
      subst hts
      simpa [List.perm_nil] using hperm
    subst hd
    subst hts
    subst hpnil
    rfl
  · rw [Imu_Bisector_init, if_neg (by omega), if_neg h0]

/-- Witness for C2's amended theorem on an unsorted input. -/
theorem bisector_argsort_reorder_witness :
    (([(10 : ℕ), 20]).length = ([(3 : ℚ), 1]).length ∧ argsortSpec [(3 : ℚ), 1] [1, 0])
    ∧ (Imu_Bisector_init [(10 : ℕ), 20] [(3 : ℚ), 1] [1, 0]
        = Except.ok ⟨reorder [(10 : ℕ), 20] [1, 0], reorder [(3 : ℚ), 1] [1, 0], [1, 0]⟩
      ∧ (reorder [(3 : ℚ), 1] [1, 0]).Sorted (· ≤ ·)
      ∧ (reorder [(3 : ℚ), 1] [1, 0]).Perm [(3 : ℚ), 1]
      ∧ (reorder [(10 : ℕ), 20] [1, 0]).Perm [(10 : ℕ), 20]) :=
  ⟨⟨by decide, by decide, by decide⟩,
   bisector_argsort_reorder [(10 : ℕ), 20] [(3 : ℚ), 1] [1, 0] (by decide)
     ⟨by decide, by decide⟩⟩

lemma absQ_eq_abs (x : ℚ) : absQ x = |x| := by
  unfold absQ
  split_ifs with h
  · rw [abs_of_neg h]
  · rw [abs_of_nonneg (le_of_not_lt h)]

lemma findClosestOne_spec (q : ℚ) (ref : List ℚ) (hne : ref ≠ []) :
    findClosestOne q ref < ref.length
    ∧ (∀ j, j < ref.length →
        absQ (ref.getD (findClosestOne q ref) 0 - q) ≤ absQ (ref.getD j 0 - q))
    ∧ (∀ j, j < ref.length →
        absQ (ref.getD j 0 - q) = absQ (ref.getD (findClosestOne q ref) 0 - q)
        → findClosestOne q ref ≤ j) := by
  induction ref with
  | nil => exact absurd rfl hne
  | cons x xs ih =>
    cases xs with
    | nil =>
      refine ⟨by simp [findClosestOne], ?_, ?_⟩
      · intro j hj
        have hj0 : j = 0 := Nat.lt_one_iff.mp (by simpa using hj)
        subst hj0
        simp [findClosestOne]
      · intro j hj heq
        simp [findClosestOne]
    | cons y tl =>
      obtain ⟨ih1, ih2, ih3⟩ := ih (by simp)
      have hunfold : findClosestOne q (x :: y :: tl)
          = if absQ ((y :: tl).getD (findClosestOne q (y :: tl)) 0 - q) < absQ (x - q)
            then findClosestOne q (y :: tl) + 1 else 0 := rfl
      by_cases hlt : absQ ((y :: tl).getD (findClosestOne q (y :: tl)) 0 - q)
          < absQ (x - q)
      · have he : findClosestOne q (x :: y :: tl) = findClosestOne q (y :: tl) + 1 := by
          rw [hunfold, if_pos hlt]
        refine ⟨?_, ?_, ?_⟩
        · rw [he]
          simpa using Nat.succ_lt_succ ih1
        · intro j hj
          rw [he]
          cases j with
          | zero =>
            rw [List.getD_cons_succ, List.getD_cons_zero]
            exact hlt.le
          | succ j' =>
            have hj' : j' < (y :: tl).length := by simpa using hj
            rw [List.getD_cons_succ, List.getD_cons_succ]
            exact ih2 j' hj'
        · intro j hj heq
          rw [he] at heq ⊢
          cases j with
          | zero =>
            exfalso
            rw [List.getD_cons_zero, List.getD_cons_succ] at heq
            exact absurd heq (ne_of_gt hlt)
          | succ j' =>
            have hj' : j' < (y :: tl).length := by simpa using hj
            rw [List.getD_cons_succ, List.getD_cons_succ] at heq
            have := ih3 j' hj' heq
            omega
      · have he : findClosestOne q (x :: y :: tl) = 0 := by
          rw [hunfold, if_neg hlt]
        refine ⟨by simp [he], ?_, ?_⟩
        · intro j hj
          rw [he]
          cases j with
          | zero => exact le_refl _
          | succ j' =>
            have hj' : j' < (y :: tl).length := by simpa using hj
            have h1 : absQ (x - q) ≤ absQ ((y :: tl).getD (findClosestOne q (y :: tl)) 0 - q) :=
              le_of_not_lt hlt
            have h2 := ih2 j' hj'
            rw [List.getD_cons_zero, List.getD_cons_succ]
            exact le_trans h1 h2
        · intro j hj heq
          rw [he]
          omega

/-- C9: for every reference timestamp sequence (ascending, nonempty) and
every query sequence, `find_closest` returns for each query the index whose
reference value has minimum absolute difference from the query, and on an
exact tie it returns the lower index. (`pm.find_closest` is modelled from
the spec, section 4.5: its source, `player_methods.py`, is not among the
files under verification.) -/
theorem find_closest_nearest_index (ref queries : List ℚ)
    (hsorted : ref.Sorted (· ≤ ·)) (hne : ref ≠ []) (k : ℕ) (hk : k < queries.length) :
    (find_closest ref queries).getD k 0 < ref.length
    ∧ (∀ j, j < ref.length →
        |ref.getD ((find_closest ref queries).getD k 0) 0 - queries.getD k 0|
          ≤ |ref.getD j 0 - queries.getD k 0|)
    ∧ (∀ j, j < ref.length →
        |ref.getD j 0 - queries.getD k 0|
          = |ref.getD ((find_closest ref queries).getD k 0) 0 - queries.getD k 0|
        → (find_closest ref queries).getD k 0 ≤ j) := by
  have h1 : queries[k]? = some queries[k] := List.getElem?_eq_getElem hk
  have hmap : (find_closest ref queries).getD k 0 = findClosestOne (queries.getD k 0) ref := by
    simp [find_closest, List.getD_eq_getElem?_getD, List.getElem?_map, h1]
  rw [hmap]
  have h2 := findClosestOne_spec (queries.getD k 0) ref hne
  simpa only [absQ_eq_abs] using h2

/-- Witness for C9: the spec's own example, `reference = [0, 10, 20]` with
queries `5` (tie broken to the lower index `0`) and `14` (index `1`). -/
theorem find_closest_nearest_index_witness :
    (List.Sorted (· ≤ ·) [(0 : ℚ), 10, 20] ∧ ([(0 : ℚ), 10, 20] ≠ [])
      ∧ (0 : ℕ) < ([(5 : ℚ), 14]).length
      ∧ find_closest [(0 : ℚ), 10, 20] [(5 : ℚ), 14] = [0, 1])
    ∧ ((find_closest [(0 : ℚ), 10, 20] [(5 : ℚ), 14]).getD 0 0 < ([(0 : ℚ), 10, 20]).length
      ∧ (∀ j, j < ([(0 : ℚ), 10, 20]).length →
          |([(0 : ℚ), 10, 20]).getD ((find_closest [(0 : ℚ), 10, 20] [(5 : ℚ), 14]).getD 0 0) 0
              - ([(5 : ℚ), 14]).getD 0 0|
            ≤ |([(0 : ℚ), 10, 20]).getD j 0 - ([(5 : ℚ), 14]).getD 0 0|)
      ∧ (∀ j, j < ([(0 : ℚ), 10, 20]).length →
          |([(0 : ℚ), 10, 20]).getD j 0 - ([(5 : ℚ), 14]).getD 0 0|
            = |([(0 : ℚ), 10, 20]).getD
                ((find_closest [(0 : ℚ), 10, 20] [(5 : ℚ), 14]).getD 0 0) 0
                - ([(5 : ℚ), 14]).getD 0 0|
          → (find_closest [(0 : ℚ), 10, 20] [(5 : ℚ), 14]).getD 0 0 ≤ j)) :=
  ⟨⟨by decide, by decide, by decide, by norm_num [find_closest, findClosestOne, absQ]⟩,
   find_closest_nearest_index [(0 : ℚ), 10, 20] [(5 : ℚ), 14] (by decide) (by decide)
     0 (by decide)⟩

lemma pollChunks_flatten {α : Type} (sizes : List ℕ) (xs : List α)
    (h : xs.length ≤ sizes.sum) : (pollChunks sizes xs).flatten = xs := by
  induction sizes generalizing xs with
  | nil =>
    have hx : xs = [] := by
      cases xs with
      | nil => rfl
      | cons a l => simp at h
    subst hx
    rfl
  | cons k ks ih =>
    have hlen : (xs.drop k).length ≤ ks.sum := by
      rw [List.length_drop]
      rw [List.sum_cons] at h
      omega
    show (xs.take k :: pollChunks ks (xs.drop k)).flatten = xs
    rw [List.flatten_cons, ih (xs.drop k) hlen, List.take_append_drop]

/-- C5: the fusion computation is deterministic and chunking-independent —
for a fixed sample list and gyro error, the concatenation of the chunks any
consumer polls is the same full yielded sequence, so any two consumptions
(of the two bit-identical runs) observe the same ordered per-sample
`(pitch, roll)` results. In this embedding `fuser` is a pure function of
`(data_raw, gyro_error)` alone, which is the determinism of the claim. -/
theorem fuser_chunking_deterministic (ds : List RawDatum) (g : ℝ)
    (sizes₁ sizes₂ : List ℕ)
    (h₁ : (fuser ds g).length ≤ sizes₁.sum) (h₂ : (fuser ds g).length ≤ sizes₂.sum) :
    (pollChunks sizes₁ (fuser ds g)).flatten = (pollChunks sizes₂ (fuser ds g)).flatten
    ∧ extractResults ((pollChunks sizes₁ (fuser ds g)).flatten)
        = extractResults (fuser ds g) := by
  rw [pollChunks_flatten sizes₁ (fuser ds g) h₁, pollChunks_flatten sizes₂ (fuser ds g) h₂]
  exact ⟨rfl, rfl⟩

/-- Witness for C5: one sample polled whole versus in two chunks. -/
theorem fuser_chunking_deterministic_witness :
    ((fuser [(⟨1, 2, 3, 4, 5, 6⟩ : RawDatum)] 50).length ≤ ([4] : List ℕ).sum
      ∧ (fuser [(⟨1, 2, 3, 4, 5, 6⟩ : RawDatum)] 50).length ≤ ([2, 2] : List ℕ).sum)
    ∧ ((pollChunks [4] (fuser [(⟨1, 2, 3, 4, 5, 6⟩ : RawDatum)] 50)).flatten
        = (pollChunks [2, 2] (fuser [(⟨1, 2, 3, 4, 5, 6⟩ : RawDatum)] 50)).flatten
      ∧ extractResults ((pollChunks [4] (fuser [(⟨1, 2, 3, 4, 5, 6⟩ : RawDatum)] 50)).flatten)
          = extractResults (fuser [(⟨1, 2, 3, 4, 5, 6⟩ : RawDatum)] 50)) :=
  ⟨⟨by simp [fuser, fuserAux], by simp [fuser, fuserAux]⟩,
   fuser_chunking_deterministic [(⟨1, 2, 3, 4, 5, 6⟩ : RawDatum)] 50 [4] [2, 2]
     (by simp [fuser, fuserAux]) (by simp [fuser, fuserAux])⟩

lemma fuserAux_length (f : Fusion) (ds : List RawDatum) (ind : ℕ) :
    (fuserAux f ds ind).length = 2 * ds.length + 1 := by
  induction ds generalizing f ind with
  | nil => rfl
  | cons d rest ih =>
    show (Msg.fusing :: Msg.fused _ ind :: fuserAux (fusionStep f d) rest (ind + 1)).length
      = 2 * (d :: rest).length + 1
    rw [List.length_cons, List.length_cons, ih (fusionStep f d) (ind + 1), List.length_cons]
    omega

lemma fuserAux_protocol (f : Fusion) (ds : List RawDatum) (ind : ℕ) :
    fuserAux f ds ind
      = ((List.range ds.length).flatMap fun i =>
          [Msg.fusing,
           Msg.fused ((runFusion f (ds.take (i + 1))).pitch,
             (runFusion f (ds.take (i + 1))).roll) (ind + i)]) ++ [Msg.complete] := by
  induction ds generalizing f ind with
  | nil => rfl
  | cons d rest ih =>
    show Msg.fusing :: Msg.fused ((fusionStep f d).pitch, (fusionStep f d).roll) ind
        :: fuserAux (fusionStep f d) rest (ind + 1) = _
    rw [ih (fusionStep f d) (ind + 1)]
    rw [List.length_cons, List.range_succ_eq_map, List.flatMap_cons, List.flatMap_map]
    have hhead : runFusion f ((d :: rest).take (0 + 1)) = fusionStep f d := rfl
    have htail : ∀ i : ℕ,
        runFusion f ((d :: rest).take (i + 1 + 1)) = runFusion (fusionStep f d) (rest.take (i + 1)) := by
      intro i
      rw [List.take_succ_cons]
      rfl
    simp only [hhead, htail, Nat.add_zero]
    simp only [List.append_assoc, List.cons_append, List.nil_append]
    simp only [Nat.succ_eq_add_one, Nat.add_assoc, Nat.add_comm 1]

/-- C10: on `n` raw samples the `fuser` generator yields exactly `2n + 2`
items in a fixed protocol: one leading `"Fusing imu"`, then for each index
`i` in ascending order a `"Fusing imu"` followed by
`"Fused datum" ((pitch_i, roll_i), i)` — each index delivered exactly once —
and a final `"Fusion complete"`. -/
theorem fuser_protocol_shape (ds : List RawDatum) (g : ℝ) :
    fuser ds g
      = Msg.fusing ::
        (((List.range ds.length).flatMap fun i =>
          [Msg.fusing,
           Msg.fused ((runFusion (Fusion.init g 0.00494) (ds.take (i + 1))).pitch,
             (runFusion (Fusion.init g 0.00494) (ds.take (i + 1))).roll) i])
          ++ [Msg.complete])
    ∧ (fuser ds g).length = 2 * ds.length + 2 := by
  constructor
  · show Msg.fusing :: fuserAux (Fusion.init g 0.00494) ds 0 = _
    rw [fuserAux_protocol (Fusion.init g 0.00494) ds 0]
    simp only [Nat.zero_add]
  · show (Msg.fusing :: fuserAux (Fusion.init g 0.00494) ds 0).length = 2 * ds.length + 2
    rw [List.length_cons, fuserAux_length]

end ImuTimeline
